import Mathlib

/-!
Shallow embedding of `src/lslim_participation_learn.c` (glslim).

The file models the two functions of the source file:

* `lslim_learn_pu` — the per-user optimizer (lines 136-181): it builds the
  per-cluster training-error array, reads `error[participation]` (an
  out-of-bounds read when `participation` is outside `[0, num_clusters)`,
  modelled by `Option`), scans the clusters for a strictly smaller error,
  and finally sets the indifference flag.  The external training-error
  oracle `lslim_training_error` is out of scope of the core and enters as
  a function parameter `Nat → ℚ` (exact rationals stand in for the C
  doubles; the core only compares errors with `<` and `==`).

* `lslim_learn_pu_all` — the round driver (lines 30-114): the balanced
  block partition (`stepRaw`/`startu` with the defensive clamp giving
  `step`/`endu`), the per-worker loop, and the gather/broadcast
  synchronization (`displays`, `gatherv`, `mpiBcast`).  A state-passing
  variant (`LearnMem`, `lslim_learn_pu_worker_mem`) records every array
  write the worker loop performs, to reason about what the loop does not
  touch.
-/

namespace GLSlim

/-- The GKlib minimum `gk_min`. -/
def gk_min (a b : Nat) : Nat := min a b

/-- Line 45-46: `step = datasize / num_procs + (id < datasize % num_procs ? 1 : 0)`,
the block length computed before the defensive clamp. -/
def stepRaw (datasize num_procs id : Nat) : Nat :=
  datasize / num_procs + (if id < datasize % num_procs then 1 else 0)

/-- Line 47-48: `startu = (datasize / num_procs) * id + gk_min(id, datasize % num_procs)`. -/
def startu (datasize num_procs id : Nat) : Nat :=
  (datasize / num_procs) * id + gk_min id (datasize % num_procs)

/-- Line 49: `endu = startu + step`, before the defensive clamp. -/
def enduRaw (datasize num_procs id : Nat) : Nat :=
  startu datasize num_procs id + stepRaw datasize num_procs id

/-- Lines 51-54: the defensively clamped end of the range of the worker:
if `endu < datasize` and this is the last worker, extend `endu` to `datasize`. -/
def endu (datasize num_procs id : Nat) : Nat :=
  if enduRaw datasize num_procs id < datasize ∧ id = num_procs - 1 then datasize
  else enduRaw datasize num_procs id

/-- Lines 51-54: the defensively clamped block length:
if the clamp fires, `step = datasize - startu`. -/
def step (datasize num_procs id : Nat) : Nat :=
  if enduRaw datasize num_procs id < datasize ∧ id = num_procs - 1 then
    datasize - startu datasize num_procs id
  else stepRaw datasize num_procs id

/-- A C array read `l[i]` with an `int` index: in bounds it yields the element,
out of bounds it is undefined behaviour, modelled as `none`. -/
def intGet (l : List ℚ) (i : Int) : Option ℚ :=
  if h : 0 ≤ i ∧ i.toNat < l.length then some (l.get ⟨i.toNat, h.2⟩) else none

/-- Embedding of `lslim_learn_pu` (lines 136-181): per-user optimizer.

`trainingError c` stands for `lslim_training_error(ctrl, model, train, u, c)`;
the error array of line 148-151 is its tabulation over `[0, num_clusters)`.
Line 155 reads `error[participation]` (out of bounds ⇒ `none`).  The fold is
the scan of lines 158-163 (strict improvement only), and the final value the
indifference computation of lines 165-175.  Returns `(new_assignment, indiff)`. -/
def lslim_learn_pu (num_clusters : Nat) (trainingError : Nat → ℚ)
    (participation : Int) : Option (Int × Nat) :=
  let error : List ℚ := (List.range num_clusters).map trainingError
  match intGet error participation with
  | none => none
  | some min_error0 =>
      let res : Int × ℚ := (List.range num_clusters).foldl
        (fun best cluster_id =>
          if error.getD cluster_id 0 < best.2 then
            ((cluster_id : Int), error.getD cluster_id 0)
          else best)
        (participation, min_error0)
      let indiff : Nat :=
        if res.1 = participation then
          if (List.range num_clusters).any
              (fun cluster_id =>
                decide (((cluster_id : Int)) ≠ participation ∧
                  error.getD cluster_id 0 = res.2)) then 1
          else 0
        else 0
      some (res.1, indiff)

/-- The strict-improvement scan of lines 158-163, over the error function
directly (`selBest n f init` folds `if f c < best.2 then (c, f c) else best`
over cluster ids `0, …, n-1`). -/
def selBest (n : Nat) (f : Nat → ℚ) (init : Int × ℚ) : Int × ℚ :=
  (List.range n).foldl
    (fun best c => if f c < best.2 then ((c : Int), f c) else best) init

/-- Lines 82-88: the gather displacements, `displays[0] = 0`,
`displays[i+1] = displays[i] + sizes[i]`. -/
def displays (sizes : List Nat) : Nat → Nat
  | 0 => 0
  | w + 1 => displays sizes w + sizes.getD w 0

/-- The per-worker slice sizes exchanged by `MPI_Gather` (line 80). -/
def sizesOf (slices : List (List Int)) : List Nat := slices.map List.length

/-- Embedding of `MPI_Gatherv` (lines 93-97): the assembled vector places the
slice of each worker contiguously at its displacement, i.e. concatenates the
slices in worker-id order. -/
def gatherv (slices : List (List Int)) : List Int := slices.flatten

/-- Embedding of `MPI_Bcast` (lines 101-102): every worker receives the
vector of the coordinator unchanged. -/
def mpiBcast (v : List Int) (_workerId : Nat) : List Int := v

/-- The slice of `(assignment, indiff)` results worker `id` computes in the
loop of lines 65-69: one `lslim_learn_pu` call per owned user, in user order. -/
def workerSlice (num_clusters : Nat) (trainErr : Nat → Nat → ℚ)
    (participation : Nat → Int) (datasize num_procs id : Nat) :
    List (Option (Int × Nat)) :=
  (List.range (step datasize num_procs id)).map
    (fun j =>
      lslim_learn_pu num_clusters
        (trainErr (startu datasize num_procs id + j))
        (participation (startu datasize num_procs id + j)))

/-- Embedding of `lslim_learn_pu_all` (lines 30-114), functional view: every worker runs
its loop, the results are gathered in worker-id order at the cumulative
displacements and broadcast; the value is the global per-user result list.
The pair `(total_participation[u], total_indiff[u])` for user `u` is entry
`u` of this list (`none` marking the undefined-behaviour case). -/
def lslim_learn_pu_all (num_clusters : Nat) (trainErr : Nat → Nat → ℚ)
    (participation : Nat → Int) (datasize num_procs : Nat) :
    List (Option (Int × Nat)) :=
  ((List.range num_procs).map
    (fun id => workerSlice num_clusters trainErr participation datasize num_procs id)).flatten

/-- The purely sequential reference run: `lslim_learn_pu` applied to every
user in index order. -/
def sequentialRun (num_clusters : Nat) (trainErr : Nat → Nat → ℚ)
    (participation : Nat → Int) (datasize : Nat) : List (Option (Int × Nat)) :=
  (List.range datasize).map
    (fun u => lslim_learn_pu num_clusters (trainErr u) (participation u))

/-- The arrays the worker loop of lines 62-69 can reach: the input
`participation` array and the two freshly allocated output slices. -/
structure LearnMem where
  participation : List Int
  slice_participation : List Int
  slice_indiff : List Int

/-- One iteration of the loop body (lines 66-68): call `lslim_learn_pu` on
`participation[u]`, store the assignment in `slice_participation[u - startu]`
and the flag in `slice_indiff[u - startu]`.  The undefined-behaviour case
performs no write. -/
def lslim_learn_pu_loop_body (num_clusters : Nat) (trainErr : Nat → Nat → ℚ)
    (startu u : Nat) (m : LearnMem) : LearnMem :=
  match lslim_learn_pu num_clusters (trainErr u) (m.participation.getD u 0) with
  | some (assignment, indiff) =>
      { m with
        slice_participation := m.slice_participation.set (u - startu) assignment,
        slice_indiff := m.slice_indiff.set (u - startu) (indiff : Int) }
  | none => m

/-- The whole worker loop of lines 65-69 (`for u = startu; u < endu`), as a
state transformer on the reachable arrays. -/
def lslim_learn_pu_worker_mem (num_clusters : Nat) (trainErr : Nat → Nat → ℚ)
    (datasize num_procs id : Nat) (m : LearnMem) : LearnMem :=
  (List.range' (startu datasize num_procs id)
      (endu datasize num_procs id - startu datasize num_procs id)).foldl
    (fun mm u => lslim_learn_pu_loop_body num_clusters trainErr
      (startu datasize num_procs id) u mm) m

/-- Contiguous chunks of the values of `f`, starting at offset `off`, with the
given chunk sizes (a proof-side view of the list of worker slices). -/
def chunksFrom {α : Type} (f : Nat → α) : Nat → List Nat → List (List α)
  | _, [] => []
  | off, s :: rest => ((List.range s).map (fun j => f (off + j))) :: chunksFrom f (off + s) rest

/-- A concrete error profile: cluster 1 is the strict improvement. -/
def errA : Nat → ℚ := fun c => if c = 1 then 1 else 2

/-- A concrete error profile: all clusters tie. -/
def errB : Nat → ℚ := fun _ => 1

/-- A concrete error profile: cluster 0 is the strict unique minimum. -/
def errC : Nat → ℚ := fun c => if c = 0 then 1 else 2

/-- The 4-user, 2-cluster error table of the scenario in the spec
(section 8): user errors `[[1,2],[2,1],[1,1],[3,3]]`. -/
def errS : Nat → Nat → ℚ := fun u c =>
  (([[1, 2], [2, 1], [1, 1], [3, 3]] : List (List ℚ)).getD u []).getD c 0

/-- The current assignment `[0, 0, 1, 0]` of the scenario. -/
def partS : Nat → Int := fun u => ([0, 0, 1, 0] : List Int).getD u 0

/- ------------------------------------------------------------------ -/
/- Work partitioner lemmas (lines 44-54).                              -/
/- ------------------------------------------------------------------ -/

theorem startu_zero (d p : Nat) : startu d p 0 = 0 := by
  simp [startu, gk_min]

theorem startu_succ_raw (d p w : Nat) : startu d p (w + 1) = enduRaw d p w := by
  unfold enduRaw stepRaw startu gk_min
  have hq : d / p * (w + 1) = d / p * w + d / p := Nat.mul_succ _ _
  rw [hq]
  generalize d / p * w = a
  generalize d / p = q
  generalize d % p = r
  by_cases hw : w < r
  · rw [Nat.min_eq_left (by omega), Nat.min_eq_left (by omega), if_pos hw]
    omega
  · rw [Nat.min_eq_right (by omega), Nat.min_eq_right (by omega), if_neg hw]
    omega

theorem startu_total (d p : Nat) (hp : 0 < p) : startu d p p = d := by
  unfold startu gk_min
  have hr : d % p < p := Nat.mod_lt _ hp
  rw [Nat.min_eq_right (Nat.le_of_lt hr), Nat.mul_comm, Nat.div_add_mod]

theorem enduRaw_last (d p : Nat) (hp : 0 < p) : enduRaw d p (p - 1) = d := by
  have h1 : p - 1 + 1 = p := Nat.succ_pred_eq_of_pos hp
  have h2 := startu_succ_raw d p (p - 1)
  rw [h1, startu_total d p hp] at h2
  exact h2.symm

theorem endu_eq_raw (d p : Nat) (hp : 0 < p) (w : Nat) :
    endu d p w = enduRaw d p w := by
  unfold endu
  rw [if_neg]
  rintro ⟨hlt, hw⟩
  rw [hw, enduRaw_last d p hp] at hlt
  exact lt_irrefl d hlt

theorem step_eq_raw (d p : Nat) (hp : 0 < p) (w : Nat) :
    step d p w = stepRaw d p w := by
  unfold step
  rw [if_neg]
  rintro ⟨hlt, hw⟩
  rw [hw, enduRaw_last d p hp] at hlt
  exact lt_irrefl d hlt

theorem endu_sub_startu (d p : Nat) (hp : 0 < p) (w : Nat) :
    endu d p w - startu d p w = step d p w := by
  rw [endu_eq_raw d p hp, step_eq_raw d p hp]
  unfold enduRaw
  omega

theorem startu_mono (d p : Nat) {w w' : Nat} (h : w ≤ w') :
    startu d p w ≤ startu d p w' := by
  unfold startu gk_min
  exact Nat.add_le_add (Nat.mul_le_mul_left _ h) (min_le_min h le_rfl)

theorem startu_eq_sum_stepRaw (d p : Nat) :
    ∀ w, startu d p w = ((List.range w).map (stepRaw d p)).sum := by
  intro w
  induction w with
  | zero => simp [startu_zero]
  | succ w ih =>
      rw [List.range_succ, List.map_append, List.sum_append, ← ih,
        startu_succ_raw]
      simp [enduRaw]

/-- C7: for every `numUsers ≥ 0` and `numWorkers ≥ 1`, the raw end of the
range of the last worker already equals `numUsers`, so the defensive clamp of
lines 51-54 never changes `endu` or `step` for any worker. -/
theorem clamp_never_fires (d p : Nat) (hp : 1 ≤ p) :
    enduRaw d p (p - 1) = d ∧
    ∀ w, endu d p w = enduRaw d p w ∧ step d p w = stepRaw d p w :=
  ⟨enduRaw_last d p hp, fun w => ⟨endu_eq_raw d p hp w, step_eq_raw d p hp w⟩⟩

theorem clamp_never_fires_witness :
    enduRaw 7 3 2 = 7 ∧ (endu 7 3 2 = enduRaw 7 3 2 ∧ step 7 3 2 = stepRaw 7 3 2) :=
  ⟨(clamp_never_fires 7 3 (by decide)).1, (clamp_never_fires 7 3 (by decide)).2 2⟩

/-- C8: the block sizes of the partition differ by at most 1 across
workers (`max blockSize - min blockSize ≤ 1`, stated pairwise). -/
theorem partition_balanced (d p : Nat) (hp : 1 ≤ p) (w v : Nat)
    (_hw : w < p) (_hv : v < p) : step d p w - step d p v ≤ 1 := by
  rw [step_eq_raw d p hp w, step_eq_raw d p hp v]
  unfold stepRaw
  generalize d / p = q
  generalize d % p = r
  by_cases h1 : w < r <;> by_cases h2 : v < r <;> simp [h1, h2]

theorem partition_balanced_witness : step 7 3 0 - step 7 3 1 ≤ 1 :=
  partition_balanced 7 3 (by decide) 0 1 (by decide) (by decide)

/-- C3: the per-worker ranges tile `[0, numUsers)` exactly once, with
`start(w) = (numUsers/numWorkers)*w + min w (numUsers % numWorkers)`, the
first `numUsers % numWorkers` workers owning one extra user; for
`numUsers = 7`, `numWorkers = 3` the sizes are `[3, 2, 2]` and the starts
`[0, 3, 5]`. -/
theorem partition_tiles_exactly (d p : Nat) (hp : 1 ≤ p) :
    (∀ w, startu d p w = d / p * w + min w (d % p)) ∧
    (∀ w, (w < d % p → step d p w = d / p + 1) ∧
          (d % p ≤ w → step d p w = d / p)) ∧
    (∀ u, u < d → ∃! w, w < p ∧ startu d p w ≤ u ∧ u < endu d p w) ∧
    ((List.range 3).map (fun w => step 7 3 w) = [3, 2, 2] ∧
     (List.range 3).map (fun w => startu 7 3 w) = [0, 3, 5]) := by
  refine ⟨fun w => rfl, fun w => ⟨?_, ?_⟩, ?_, by decide⟩
  · intro h
    rw [step_eq_raw d p hp]
    unfold stepRaw
    rw [if_pos h]
  · intro h
    rw [step_eq_raw d p hp]
    unfold stepRaw
    rw [if_neg (Nat.not_lt.mpr h)]
    exact Nat.add_zero _
  · intro u hu
    have hP0 : startu d p 0 ≤ u := by rw [startu_zero]; exact Nat.zero_le u
    have hw0P : startu d p (Nat.findGreatest (fun w => startu d p w ≤ u) (p - 1)) ≤ u :=
      Nat.findGreatest_spec (P := fun w => startu d p w ≤ u) (m := 0) (n := p - 1)
        (Nat.zero_le _) hP0
    have hw0le : Nat.findGreatest (fun w => startu d p w ≤ u) (p - 1) ≤ p - 1 :=
      Nat.findGreatest_le (P := fun w => startu d p w ≤ u) (p - 1)
    have hw0lt : Nat.findGreatest (fun w => startu d p w ≤ u) (p - 1) < p := by omega
    have hend : u < endu d p (Nat.findGreatest (fun w => startu d p w ≤ u) (p - 1)) := by
      rcases Nat.lt_or_ge (Nat.findGreatest (fun w => startu d p w ≤ u) (p - 1)) (p - 1)
        with h | h
      · have hgr : ¬ startu d p
            (Nat.findGreatest (fun w => startu d p w ≤ u) (p - 1) + 1) ≤ u :=
          Nat.findGreatest_is_greatest (P := fun w => startu d p w ≤ u) (n := p - 1)
            (k := Nat.findGreatest (fun w => startu d p w ≤ u) (p - 1) + 1)
            (Nat.lt_succ_self _) (by omega)
        rw [endu_eq_raw d p hp, ← startu_succ_raw]
        omega
      · have heq : Nat.findGreatest (fun w => startu d p w ≤ u) (p - 1) = p - 1 := by
          omega
        rw [endu_eq_raw d p hp, heq, enduRaw_last d p hp]
        exact hu
    refine ⟨Nat.findGreatest (fun w => startu d p w ≤ u) (p - 1),
      ⟨hw0lt, hw0P, hend⟩, ?_⟩
    rintro y ⟨hy, hys, hye⟩
    by_contra hne
    rcases Nat.lt_or_ge y (Nat.findGreatest (fun w => startu d p w ≤ u) (p - 1))
      with h | h
    · have h1 : endu d p y = startu d p (y + 1) := by
        rw [endu_eq_raw d p hp, startu_succ_raw]
      have h2 : startu d p (y + 1) ≤
          startu d p (Nat.findGreatest (fun w => startu d p w ≤ u) (p - 1)) :=
        startu_mono d p (by omega)
      omega
    · have hlt : Nat.findGreatest (fun w => startu d p w ≤ u) (p - 1) < y := by
        omega
      have h1 : endu d p (Nat.findGreatest (fun w => startu d p w ≤ u) (p - 1)) =
          startu d p (Nat.findGreatest (fun w => startu d p w ≤ u) (p - 1) + 1) := by
        rw [endu_eq_raw d p hp, startu_succ_raw]
      have h2 : startu d p
          (Nat.findGreatest (fun w => startu d p w ≤ u) (p - 1) + 1) ≤ startu d p y :=
        startu_mono d p (by omega)
      omega

theorem partition_tiles_exactly_witness :
    (List.range 3).map (fun w => step 7 3 w) = [3, 2, 2] ∧
    (List.range 3).map (fun w => startu 7 3 w) = [0, 3, 5] :=
  (partition_tiles_exactly 7 3 (by decide)).2.2.2

/- ------------------------------------------------------------------ -/
/- Per-user optimizer lemmas (lines 136-181).                          -/
/- ------------------------------------------------------------------ -/

theorem getD_map_range (f : Nat → ℚ) {n c : Nat} (h : c < n) :
    ((List.range n).map f).getD c 0 = f c := by
  rw [List.getD_eq_getElem?_getD, List.getElem?_map, List.getElem?_range h]
  rfl

theorem intGet_natCast (f : Nat → ℚ) {n c : Nat} (h : c < n) :
    intGet ((List.range n).map f) (c : Int) = some (f c) := by
  have hb : 0 ≤ (c : Int) ∧ ((c : Int)).toNat < ((List.range n).map f).length := by
    simp [Int.toNat_natCast, h]
  unfold intGet
  rw [dif_pos hb]
  congr 1
  rw [List.get_eq_getElem]
  simp [Int.toNat_natCast]

theorem any_congr_mem {α : Type} (l : List α) (f g : α → Bool)
    (h : ∀ a ∈ l, f a = g a) : l.any f = l.any g := by
  induction l with
  | nil => rfl
  | cons a t ih =>
      simp only [List.any_cons, h a (List.mem_cons_self a t),
        ih (fun b hb => h b (List.mem_cons_of_mem a hb))]

/-- Reading `lslim_learn_pu` on an in-bounds current assignment as the pure
scan `selBest` over the training-error function. -/
theorem lslim_learn_pu_eq (n : Nat) (f : Nat → ℚ) (c : Nat) (h : c < n) :
    lslim_learn_pu n f (c : Int) =
      some ((selBest n f ((c : Int), f c)).1,
        if (selBest n f ((c : Int), f c)).1 = (c : Int) then
          if (List.range n).any (fun k =>
              decide ((k : Int) ≠ (c : Int) ∧ f k = (selBest n f ((c : Int), f c)).2))
          then 1 else 0
        else 0) := by
  have hfold : (List.range n).foldl
      (fun best cluster_id =>
        if ((List.range n).map f).getD cluster_id 0 < best.2 then
          ((cluster_id : Int), ((List.range n).map f).getD cluster_id 0)
        else best) ((c : Int), f c) = selBest n f ((c : Int), f c) := by
    unfold selBest
    apply List.foldl_ext
    intro b k hk
    rw [getD_map_range f (List.mem_range.mp hk)]
  have hany : ∀ m : ℚ, (List.range n).any (fun k =>
      decide ((k : Int) ≠ (c : Int) ∧ ((List.range n).map f).getD k 0 = m)) =
      (List.range n).any (fun k => decide ((k : Int) ≠ (c : Int) ∧ f k = m)) := by
    intro m
    apply any_congr_mem
    intro k hk
    rw [getD_map_range f (List.mem_range.mp hk)]
  simp only [lslim_learn_pu, intGet_natCast f h, hfold, hany]

theorem selBest_spec (f : Nat → ℚ) :
    ∀ (n : Nat) (init : Int × ℚ),
      ((∀ c, c < n → init.2 ≤ f c) → selBest n f init = init) ∧
      ((∃ c, c < n ∧ f c < init.2) →
        ∃ c0, c0 < n ∧ selBest n f init = ((c0 : Int), f c0) ∧ f c0 < init.2 ∧
          (∀ c, c < n → f c0 ≤ f c) ∧ (∀ c, c < c0 → f c0 < f c)) := by
  intro n
  induction n with
  | zero =>
      intro init
      refine ⟨fun _ => rfl, ?_⟩
      rintro ⟨c, hc, -⟩
      exact absurd hc (Nat.not_lt_zero c)
  | succ n ih =>
      intro init
      have hstep : selBest (n + 1) f init =
          if f n < (selBest n f init).2 then ((n : Int), f n) else selBest n f init := by
        unfold selBest
        rw [List.range_succ, List.foldl_append]
        rfl
      constructor
      · intro hall
        have hb : selBest n f init = init :=
          (ih init).1 (fun c hc => hall c (Nat.lt_succ_of_lt hc))
        rw [hstep, hb, if_neg (not_lt.mpr (hall n (Nat.lt_succ_self n)))]
      · intro hex
        by_cases hprev : ∃ c, c < n ∧ f c < init.2
        · obtain ⟨c0, hc0n, heq, hlt, hmin, hfirst⟩ := (ih init).2 hprev
          have hb2 : (selBest n f init).2 = f c0 := by rw [heq]
          by_cases hn : f n < (selBest n f init).2
          · have hn' : f n < f c0 := hb2 ▸ hn
            refine ⟨n, Nat.lt_succ_self n, ?_, lt_trans hn' hlt, ?_, ?_⟩
            · rw [hstep, if_pos hn]
            · intro k hk
              rcases Nat.lt_succ_iff_lt_or_eq.mp hk with hkn | hkn
              · exact le_of_lt (lt_of_lt_of_le hn' (hmin k hkn))
              · rw [hkn]
            · intro k hk
              exact lt_of_lt_of_le hn' (hmin k hk)
          · have hn' : f c0 ≤ f n := by
              rw [hb2] at hn
              exact not_lt.mp hn
            refine ⟨c0, Nat.lt_succ_of_lt hc0n, ?_, hlt, ?_, hfirst⟩
            · rw [hstep, if_neg hn]
              exact heq
            · intro k hk
              rcases Nat.lt_succ_iff_lt_or_eq.mp hk with hkn | hkn
              · exact hmin k hkn
              · rw [hkn]
                exact hn'
        · have hall : ∀ k, k < n → init.2 ≤ f k := by
            intro k hk
            by_contra hcon
            exact hprev ⟨k, hk, not_le.mp hcon⟩
          have hb : selBest n f init = init := (ih init).1 hall
          obtain ⟨c, hc, hclt⟩ := hex
          have hcn : c = n := by
            rcases Nat.lt_succ_iff_lt_or_eq.mp hc with hkn | hkn
            · exact absurd hclt (not_lt.mpr (hall c hkn))
            · exact hkn
          subst hcn
          have hn : f c < (selBest c f init).2 := by
            rw [hb]
            exact hclt
          refine ⟨c, Nat.lt_succ_self c, by rw [hstep, if_pos hn], hclt, ?_, ?_⟩
          · intro k hk
            rcases Nat.lt_succ_iff_lt_or_eq.mp hk with hkn | hkn
            · exact le_of_lt (lt_of_lt_of_le hclt (hall k hkn))
            · rw [hkn]
          · intro k hk
            exact lt_of_lt_of_le hclt (hall k hk)

theorem lslim_stay_tie (n : Nat) (f : Nat → ℚ) (c : Nat) (h : c < n)
    (hall : ∀ k, k < n → f c ≤ f k)
    (htie : ∃ k, k < n ∧ k ≠ c ∧ f k = f c) :
    lslim_learn_pu n f (c : Int) = some ((c : Int), 1) := by
  have hb : selBest n f ((c : Int), f c) = ((c : Int), f c) :=
    (selBest_spec f n ((c : Int), f c)).1 hall
  rw [lslim_learn_pu_eq n f c h, hb]
  obtain ⟨k, hk, hkc, hke⟩ := htie
  have hany : (List.range n).any (fun k =>
      decide ((k : Int) ≠ (c : Int) ∧ f k = ((c : Int), f c).2)) = true := by
    simp only [List.any_eq_true, List.mem_range, decide_eq_true_eq]
    exact ⟨k, hk, by exact_mod_cast hkc, hke⟩
  rw [if_pos rfl, hany]
  rfl

theorem lslim_stay_notie (n : Nat) (f : Nat → ℚ) (c : Nat) (h : c < n)
    (hall : ∀ k, k < n → f c ≤ f k)
    (hno : ∀ k, k < n → k ≠ c → f k ≠ f c) :
    lslim_learn_pu n f (c : Int) = some ((c : Int), 0) := by
  have hb : selBest n f ((c : Int), f c) = ((c : Int), f c) :=
    (selBest_spec f n ((c : Int), f c)).1 hall
  rw [lslim_learn_pu_eq n f c h, hb]
  have hany : (List.range n).any (fun k =>
      decide ((k : Int) ≠ (c : Int) ∧ f k = ((c : Int), f c).2)) = false := by
    simp only [List.any_eq_false, List.mem_range, decide_eq_true_eq, not_and]
    intro k hk hkc
    exact hno k hk (by exact_mod_cast hkc)
  rw [if_pos rfl, hany]
  rfl

/-- C1: if some cluster has strictly lower training error than the current
assignment, `lslim_learn_pu` returns the lowest cluster id achieving the
minimum error, with the indifference flag 0. -/
theorem optimizer_improvement (n : Nat) (f : Nat → ℚ) (c : Nat)
    (hc : c < n) (himp : ∃ k, k < n ∧ f k < f c) :
    ∃ a, a < n ∧ lslim_learn_pu n f (c : Int) = some ((a : Int), 0) ∧
      (∀ k, k < n → f a ≤ f k) ∧ (∀ k, k < n → f k = f a → a ≤ k) := by
  obtain ⟨a, han, heq, hlt, hmin, hfirst⟩ :=
    (selBest_spec f n ((c : Int), f c)).2 himp
  refine ⟨a, han, ?_, hmin, ?_⟩
  · rw [lslim_learn_pu_eq n f c hc, heq]
    have hne : ((a : Int)) ≠ (c : Int) := by
      intro hcast
      have hac : a = c := by exact_mod_cast hcast
      rw [hac] at hlt
      exact absurd hlt (lt_irrefl _)
    simp [hne]
  · intro k hk hfe
    by_contra hka
    have := hfirst k (by omega)
    rw [hfe] at this
    exact absurd this (lt_irrefl _)

theorem optimizer_improvement_witness :
    (2 < 3 ∧ ∃ k : Nat, k < 3 ∧ errA k < errA 2) ∧
    ∃ a : Nat, a < 3 ∧ lslim_learn_pu 3 errA ((2 : Nat) : Int) = some ((a : Int), 0) ∧
      (∀ k, k < 3 → errA a ≤ errA k) ∧ (∀ k, k < 3 → errA k = errA a → a ≤ k) :=
  ⟨⟨by decide, ⟨1, by decide, by decide⟩⟩,
    optimizer_improvement 3 errA 2 (by decide) ⟨1, by decide, by decide⟩⟩

/-- C2: with no strictly better cluster, `lslim_learn_pu` keeps the current
assignment; the indifference flag is 1 exactly when some other cluster ties
the current error, 0 when none does. -/
theorem optimizer_tie_detection (n : Nat) (f : Nat → ℚ) (c : Nat)
    (hc : c < n) (hnolower : ∀ k, k < n → ¬ f k < f c) :
    ((∃ k, k < n ∧ k ≠ c ∧ f k = f c) →
      lslim_learn_pu n f (c : Int) = some ((c : Int), 1)) ∧
    ((∀ k, k < n → k ≠ c → f k ≠ f c) →
      lslim_learn_pu n f (c : Int) = some ((c : Int), 0)) := by
  have hall : ∀ k, k < n → f c ≤ f k := fun k hk => not_lt.mp (hnolower k hk)
  exact ⟨fun htie => lslim_stay_tie n f c hc hall htie,
    fun hno => lslim_stay_notie n f c hc hall hno⟩

theorem optimizer_tie_detection_witness :
    lslim_learn_pu 2 errB ((0 : Nat) : Int) = some (((0 : Nat) : Int), 1) :=
  (optimizer_tie_detection 2 errB 0 (by decide)
    (by decide)).1 ⟨1, by decide, by decide, by decide⟩

/-- C6: if the current assignment is the strict unique error minimizer,
`lslim_learn_pu` returns it unchanged with the indifference flag 0. -/
theorem optimizer_incumbency (n : Nat) (f : Nat → ℚ) (c : Nat)
    (hc : c < n) (hmin : ∀ k, k < n → k ≠ c → f c < f k) :
    lslim_learn_pu n f (c : Int) = some ((c : Int), 0) := by
  have hall : ∀ k, k < n → f c ≤ f k := by
    intro k hk
    by_cases hkc : k = c
    · rw [hkc]
    · exact le_of_lt (hmin k hk hkc)
  exact lslim_stay_notie n f c hc hall
    (fun k hk hkc => ne_of_gt (hmin k hk hkc))

theorem optimizer_incumbency_witness :
    lslim_learn_pu 2 errC ((0 : Nat) : Int) = some (((0 : Nat) : Int), 0) :=
  optimizer_incumbency 2 errC 0 (by decide) (by decide)

/-- C10: the function `lslim_learn_pu` stays within bounds (returns a result) exactly
when the caller-supplied assignment satisfies `0 ≤ participation < n`; any
other input makes the read `error[participation]` out of bounds. -/
theorem optimizer_index_in_bounds_iff (n : Nat) (f : Nat → ℚ)
    (participation : Int) :
    (lslim_learn_pu n f participation).isSome ↔
      0 ≤ participation ∧ participation < (n : Int) := by
  rcases Classical.em
      (0 ≤ participation ∧
        participation.toNat < ((List.range n).map f).length) with hin | hin
  · simp only [lslim_learn_pu, intGet, dif_pos hin, Option.isSome_some, true_iff]
    simp only [List.length_map, List.length_range] at hin
    omega
  · have hnone : lslim_learn_pu n f participation = none := by
      simp only [lslim_learn_pu, intGet, dif_neg hin]
    rw [hnone]
    simp only [Option.isSome_none, Bool.false_eq_true, false_iff, not_and, not_lt]
    intro h0
    by_contra hcon
    apply hin
    simp only [List.length_map, List.length_range]
    omega

/- ------------------------------------------------------------------ -/
/- Distributed synchronizer lemmas (lines 71-102).                     -/
/- ------------------------------------------------------------------ -/

theorem displays_cons (s0 : Nat) (rest : List Nat) :
    ∀ w, displays (s0 :: rest) (w + 1) = s0 + displays rest w := by
  intro w
  induction w with
  | zero => simp [displays]
  | succ w ih =>
      show displays (s0 :: rest) (w + 1) + (s0 :: rest).getD (w + 1) 0 =
        s0 + (displays rest w + rest.getD w 0)
      rw [ih, List.getD_cons_succ, Nat.add_assoc]

theorem displays_eq_take_sum :
    ∀ (w : Nat) (sizes : List Nat), displays sizes w = (sizes.take w).sum := by
  intro w
  induction w with
  | zero => intro sizes; simp [displays]
  | succ w ih =>
      intro sizes
      cases sizes with
      | nil =>
          show displays [] w + ([] : List Nat).getD w 0 = _
          rw [ih []]
          simp
      | cons s0 rest =>
          rw [displays_cons, ih rest, List.take_succ_cons, List.sum_cons]

theorem gatherv_getD (slices : List (List Int)) :
    ∀ w j, w < slices.length → j < (slices.getD w []).length →
      (gatherv slices).getD (displays (sizesOf slices) w + j) 0 =
        (slices.getD w []).getD j 0 := by
  induction slices with
  | nil =>
      intro w j hw _
      exact absurd hw (Nat.not_lt_zero w)
  | cons s rest ih =>
      intro w j hw hj
      cases w with
      | zero =>
          show (s ++ (gatherv rest)).getD (displays (sizesOf (s :: rest)) 0 + j) 0 = s.getD j 0
          show (s ++ (gatherv rest)).getD (0 + j) 0 = s.getD j 0
          rw [Nat.zero_add]
          exact List.getD_append s (gatherv rest) 0 j hj
      | succ w =>
          have hdisp : displays (sizesOf (s :: rest)) (w + 1) =
              s.length + displays (sizesOf rest) w := by
            show displays (s.length :: sizesOf rest) (w + 1) = _
            exact displays_cons s.length (sizesOf rest) w
          show (s ++ gatherv rest).getD (displays (sizesOf (s :: rest)) (w + 1) + j) 0 =
            (rest.getD w []).getD j 0
          rw [hdisp, Nat.add_assoc,
            List.getD_append_right s (gatherv rest) 0 _ (Nat.le_add_right _ _)]
          rw [Nat.add_sub_cancel_left]
          exact ih w j (Nat.lt_of_succ_lt_succ hw) hj

theorem gatherv_cover (slices : List (List Int)) :
    ∀ u, u < (gatherv slices).length → ∃ w, ∃ j, w < slices.length ∧
      j < (slices.getD w []).length ∧ u = displays (sizesOf slices) w + j := by
  induction slices with
  | nil =>
      intro u hu
      simp [gatherv] at hu
  | cons s rest ih =>
      intro u hu
      have hlen : (gatherv (s :: rest)).length = s.length + (gatherv rest).length := by
        simp [gatherv]
      by_cases hus : u < s.length
      · exact ⟨0, u, Nat.succ_pos _, hus, by simp [displays]⟩
      · have hu' : u - s.length < (gatherv rest).length := by omega
        obtain ⟨w, j, hw, hj, he⟩ := ih (u - s.length) hu'
        refine ⟨w + 1, j, Nat.succ_lt_succ hw, hj, ?_⟩
        have hdisp : displays (sizesOf (s :: rest)) (w + 1) =
            s.length + displays (sizesOf rest) w :=
          displays_cons s.length (sizesOf rest) w
        rw [hdisp]
        omega

/-- C4: the gather of lines 80-97 places the slice of worker `w` at the offset
equal to the sum of the sizes of workers `0..w-1`; the assembled vector has
length the sum of the slice sizes, restores every slice entry at its global
position, covers every global index by exactly the owning slice, and the
broadcast of lines 101-102 hands every worker the identical copy. -/
theorem synchronize_places_slices (slices : List (List Int)) :
    (gatherv slices).length = (sizesOf slices).sum ∧
    (∀ w, w < slices.length →
      displays (sizesOf slices) w = ((sizesOf slices).take w).sum ∧
      ∀ j, j < (slices.getD w []).length →
        (gatherv slices).getD (displays (sizesOf slices) w + j) 0 =
          (slices.getD w []).getD j 0) ∧
    (∀ u, u < (gatherv slices).length → ∃ w, ∃ j, w < slices.length ∧
      j < (slices.getD w []).length ∧ u = displays (sizesOf slices) w + j) ∧
    (∀ w w', mpiBcast (gatherv slices) w = mpiBcast (gatherv slices) w') := by
  refine ⟨by simp [gatherv, sizesOf], ?_, gatherv_cover slices, fun w w' => rfl⟩
  intro w hw
  exact ⟨displays_eq_take_sum w (sizesOf slices),
    fun j hj => gatherv_getD slices w j hw hj⟩

theorem synchronize_places_slices_witness :
    (gatherv [[5, 7], [9], [11, 13]]).getD
        (displays (sizesOf [[5, 7], [9], [11, 13]]) 2 + 1) 0 =
      (([[5, 7], [9], [11, 13]] : List (List Int)).getD 2 []).getD 1 0 :=
  ((synchronize_places_slices [[5, 7], [9], [11, 13]]).2.1 2 (by decide)).2 1 (by decide)

/- ------------------------------------------------------------------ -/
/- Worker-count invariance (lines 30-114).                             -/
/- ------------------------------------------------------------------ -/

theorem chunksFrom_append {α : Type} (f : Nat → α) :
    ∀ (s1 s2 : List Nat) (off : Nat),
      chunksFrom f off (s1 ++ s2) =
        chunksFrom f off s1 ++ chunksFrom f (off + s1.sum) s2 := by
  intro s1
  induction s1 with
  | nil => intro s2 off; simp [chunksFrom]
  | cons s rest ih =>
      intro s2 off
      show (List.range s).map (fun j => f (off + j)) ::
          chunksFrom f (off + s) (rest ++ s2) =
        ((List.range s).map (fun j => f (off + j)) ::
          chunksFrom f (off + s) rest) ++ chunksFrom f (off + (s :: rest).sum) s2
      rw [List.cons_append, ih s2 (off + s), List.sum_cons, Nat.add_assoc]

theorem chunksFrom_flatten {α : Type} (f : Nat → α) :
    ∀ (sizes : List Nat) (off : Nat),
      (chunksFrom f off sizes).flatten =
        (List.range sizes.sum).map (fun j => f (off + j)) := by
  intro sizes
  induction sizes with
  | nil => intro off; simp [chunksFrom]
  | cons s rest ih =>
      intro off
      show ((List.range s).map (fun j => f (off + j))) ++
          (chunksFrom f (off + s) rest).flatten = _
      have hcomp : ((fun j => f (off + j)) ∘ fun x => s + x) =
          fun j => f (off + s + j) := by
        funext j
        show f (off + (s + j)) = f (off + s + j)
        rw [Nat.add_assoc]
      rw [ih (off + s), List.sum_cons, List.range_add, List.map_append,
        List.map_map, hcomp]

theorem workers_eq_chunksFrom (nc : Nat) (te : Nat → Nat → ℚ) (pa : Nat → Int)
    (d p : Nat) (hp : 1 ≤ p) :
    ∀ q, (List.range q).map (fun id => workerSlice nc te pa d p id) =
      chunksFrom (fun u => lslim_learn_pu nc (te u) (pa u)) 0
        ((List.range q).map (stepRaw d p)) := by
  intro q
  induction q with
  | zero => rfl
  | succ q ih =>
      rw [List.range_succ, List.map_append, List.map_append, ih,
        chunksFrom_append]
      congr 1
      show [workerSlice nc te pa d p q] =
        chunksFrom (fun u => lslim_learn_pu nc (te u) (pa u))
          (0 + ((List.range q).map (stepRaw d p)).sum) [stepRaw d p q]
      rw [Nat.zero_add, ← startu_eq_sum_stepRaw d p q]
      show [workerSlice nc te pa d p q] =
        [(List.range (stepRaw d p q)).map
          (fun j => lslim_learn_pu nc (te (startu d p q + j)) (pa (startu d p q + j)))]
      rw [← step_eq_raw d p hp q]
      rfl

theorem lslim_learn_pu_all_eq_seq (nc : Nat) (te : Nat → Nat → ℚ)
    (pa : Nat → Int) (d p : Nat) (hp : 1 ≤ p) :
    lslim_learn_pu_all nc te pa d p = sequentialRun nc te pa d := by
  unfold lslim_learn_pu_all sequentialRun
  rw [workers_eq_chunksFrom nc te pa d p hp p, chunksFrom_flatten,
    ← startu_eq_sum_stepRaw d p p, startu_total d p hp]
  simp

/-- C5: for fixed inputs, the global result of `lslim_learn_pu_all` is the
same for every worker count `≥ 1`, and equals the sequential run that
applies `lslim_learn_pu` to every user in index order. -/
theorem worker_count_invariance (nc : Nat) (te : Nat → Nat → ℚ)
    (pa : Nat → Int) (d p q : Nat) (hp : 1 ≤ p) (hq : 1 ≤ q) :
    lslim_learn_pu_all nc te pa d p = lslim_learn_pu_all nc te pa d q ∧
    lslim_learn_pu_all nc te pa d p = sequentialRun nc te pa d := by
  rw [lslim_learn_pu_all_eq_seq nc te pa d p hp,
    lslim_learn_pu_all_eq_seq nc te pa d q hq]
  exact ⟨rfl, rfl⟩

theorem worker_count_invariance_witness :
    lslim_learn_pu_all 2 errS partS 4 2 = lslim_learn_pu_all 2 errS partS 4 1 ∧
    lslim_learn_pu_all 2 errS partS 4 2 = sequentialRun 2 errS partS 4 :=
  worker_count_invariance 2 errS partS 4 2 1 (by decide) (by decide)

/- ------------------------------------------------------------------ -/
/- Frame property of the worker loop (lines 62-69).                    -/
/- ------------------------------------------------------------------ -/

theorem loop_body_preserves_participation (nc : Nat) (te : Nat → Nat → ℚ)
    (s u : Nat) (m : LearnMem) :
    (lslim_learn_pu_loop_body nc te s u m).participation = m.participation := by
  unfold lslim_learn_pu_loop_body
  cases lslim_learn_pu nc (te u) (m.participation.getD u 0) with
  | none => rfl
  | some r => cases r with | mk a i => rfl

/-- C9: the worker loop writes only the freshly allocated slice arrays; the
input participation array holds the same values after the loop as before. -/
theorem worker_loop_preserves_participation (nc : Nat) (te : Nat → Nat → ℚ)
    (d p id : Nat) (m : LearnMem) :
    (lslim_learn_pu_worker_mem nc te d p id m).participation = m.participation := by
  unfold lslim_learn_pu_worker_mem
  generalize List.range' (startu d p id) (endu d p id - startu d p id) = l
  induction l generalizing m with
  | nil => rfl
  | cons u t ih =>
      rw [List.foldl_cons, ih, loop_body_preserves_participation]

end GLSlim
